import Mathlib

/-!
Verification of the lsm-tree core against its source.

We shallowly embed the parts of the engine the claims concern:
the memtable (`src/memtable/mod.rs`), the FIFO compaction strategy
(`src/compaction/fifo.rs`), the segment file trailer
(`src/segment/trailer.rs`), and the blob tree flush / value-handle
resolution (`src/blob_tree/mod.rs`).

Byte strings are `List Nat`, machine integers are `Nat` with explicit
`% 2^w` where the source's wrapping matters, and fallible or panicking
code returns `Option`.
-/

namespace LsmTree

/-- User keys / values: opaque byte sequences (`UserKey`, `UserValue`). -/
abbrev Bytes := List Nat

/-- Sequence number (`SeqNo = u64`). -/
abbrev SeqNo := Nat

/-- `u64::MAX`, the scan start seqno used by `MemTable::get`. -/
def SeqNoMAX : Nat := 2 ^ 64 - 1

/-- `ValueType`: `Value` or `Tombstone` (`src/value.rs`, referenced by the slice). -/
inductive ValueType where
  | value : ValueType
  | tombstone : ValueType
deriving DecidableEq, Repr

/-- Numeric rank of a `ValueType` (`Value = 0`, `Tombstone = 1`). -/
def vtRank : ValueType → Nat
  | .value => 0
  | .tombstone => 1

/-- `ParsedInternalKey`: `(user_key, seqno, value_type)`. -/
structure ParsedInternalKey where
  user_key : Bytes
  seqno : SeqNo
  value_type : ValueType
deriving DecidableEq, Repr

/-- `Value`: a full entry `(key, value, seqno, value_type)`. -/
structure Value where
  key : Bytes
  value : Bytes
  seqno : SeqNo
  value_type : ValueType
deriving DecidableEq, Repr

/-- Lexicographic strict order on byte strings (Rust's `Ord` for `[u8]`):
a proper prefix is smaller. -/
def bytesLtB : Bytes → Bytes → Bool
  | [], [] => false
  | [], _ :: _ => true
  | _ :: _, [] => false
  | a :: as, b :: bs => a < b || (a == b && bytesLtB as bs)

/-- Propositional form of the byte-string order. -/
def bytesLt (a b : Bytes) : Prop := bytesLtB a b = true

instance (a b : Bytes) : Decidable (bytesLt a b) := by
  unfold bytesLt
  infer_instance

theorem bytesLtB_irrefl (l : Bytes) : bytesLtB l l = false := by
  induction l with
  | nil => rfl
  | cons a as ih => simp [bytesLtB, ih]

theorem bytesLt_irrefl (l : Bytes) : ¬ bytesLt l l := by
  simp [bytesLt, bytesLtB_irrefl]

theorem bytesLt_trans {a b c : Bytes} (h₁ : bytesLt a b) (h₂ : bytesLt b c) :
    bytesLt a c := by
  induction a generalizing b c with
  | nil =>
    cases b with
    | nil => exact absurd h₁ (bytesLt_irrefl [])
    | cons y ys =>
      cases c with
      | nil => exact absurd h₂ (by simp [bytesLt, bytesLtB])
      | cons z zs => simp [bytesLt, bytesLtB]
  | cons x xs ih =>
    cases b with
    | nil => exact absurd h₁ (by simp [bytesLt, bytesLtB])
    | cons y ys =>
      cases c with
      | nil => exact absurd h₂ (by simp [bytesLt, bytesLtB])
      | cons z zs =>
        simp only [bytesLt, bytesLtB, Bool.or_eq_true, Bool.and_eq_true,
          decide_eq_true_eq, beq_iff_eq] at h₁ h₂ ⊢
        rcases h₁ with h₁ | ⟨rfl, h₁⟩
        · rcases h₂ with h₂ | ⟨rfl, h₂⟩
          · exact Or.inl (Nat.lt_trans h₁ h₂)
          · exact Or.inl h₁
        · rcases h₂ with h₂ | ⟨rfl, h₂⟩
          · exact Or.inl h₂
          · exact Or.inr ⟨rfl, ih h₁ h₂⟩

theorem bytesLt_trichot (a b : Bytes) : bytesLt a b ∨ a = b ∨ bytesLt b a := by
  induction a generalizing b with
  | nil =>
    cases b with
    | nil => exact Or.inr (Or.inl rfl)
    | cons y ys => exact Or.inl (by simp [bytesLt, bytesLtB])
  | cons x xs ih =>
    cases b with
    | nil => exact Or.inr (Or.inr (by simp [bytesLt, bytesLtB]))
    | cons y ys =>
      rcases Nat.lt_trichotomy x y with hxy | rfl | hxy
      · exact Or.inl (by simp [bytesLt, bytesLtB, hxy])
      · rcases ih ys with h | rfl | h
        · exact Or.inl (by simp [bytesLt, bytesLtB] at h ⊢; exact h)
        · exact Or.inr (Or.inl rfl)
        · exact Or.inr (Or.inr (by simp [bytesLt, bytesLtB] at h ⊢; exact h))
      · exact Or.inr (Or.inr (by simp [bytesLt, bytesLtB, hxy]))

theorem bytesLt_asymm {a b : Bytes} (h : bytesLt a b) : ¬ bytesLt b a := by
  intro h'
  exact bytesLt_irrefl a (bytesLt_trans h h')

/-- Modelled from the spec: the ParsedInternalKey ordering (src/value.rs is
not in the slice): ascending user_key, then descending seqno (newer
first), then value_type. -/
def ikLt (a b : ParsedInternalKey) : Prop :=
  bytesLt a.user_key b.user_key ∨
    (a.user_key = b.user_key ∧
      (b.seqno < a.seqno ∨ (a.seqno = b.seqno ∧ vtRank a.value_type < vtRank b.value_type)))

instance (a b : ParsedInternalKey) : Decidable (ikLt a b) := by
  unfold ikLt
  infer_instance

theorem ikLt_irrefl (a : ParsedInternalKey) : ¬ ikLt a a := by
  rintro (h | ⟨-, h | ⟨-, h⟩⟩)
  · exact bytesLt_irrefl _ h
  · exact Nat.lt_irrefl _ h
  · exact Nat.lt_irrefl _ h

theorem ikLt_trans {a b c : ParsedInternalKey} (h₁ : ikLt a b) (h₂ : ikLt b c) :
    ikLt a c := by
  rcases h₁ with h₁ | ⟨e₁, h₁⟩
  · rcases h₂ with h₂ | ⟨e₂, h₂⟩
    · exact Or.inl (bytesLt_trans h₁ h₂)
    · exact Or.inl (e₂ ▸ h₁)
  · rcases h₂ with h₂ | ⟨e₂, h₂⟩
    · exact Or.inl (e₁ ▸ h₂)
    · refine Or.inr ⟨e₁.trans e₂, ?_⟩
      rcases h₁ with h₁ | ⟨s₁, h₁⟩
      · rcases h₂ with h₂ | ⟨s₂, h₂⟩
        · exact Or.inl (Nat.lt_trans h₂ h₁)
        · exact Or.inl (s₂ ▸ h₁)
      · rcases h₂ with h₂ | ⟨s₂, h₂⟩
        · exact Or.inl (s₁ ▸ h₂)
        · exact Or.inr ⟨s₁.trans s₂, Nat.lt_trans h₁ h₂⟩

theorem ikLt_trichot (a b : ParsedInternalKey) : ikLt a b ∨ a = b ∨ ikLt b a := by
  obtain ⟨ka, sa, ta⟩ := a
  obtain ⟨kb, sb, tb⟩ := b
  rcases bytesLt_trichot ka kb with h | rfl | h
  · exact Or.inl (Or.inl h)
  · rcases Nat.lt_trichotomy sa sb with hs | rfl | hs
    · exact Or.inr (Or.inr (Or.inr ⟨rfl, Or.inl hs⟩))
    · rcases Nat.lt_trichotomy (vtRank ta) (vtRank tb) with ht | ht | ht
      · exact Or.inl (Or.inr ⟨rfl, Or.inr ⟨rfl, ht⟩⟩)
      · have : ta = tb := by cases ta <;> cases tb <;> simp [vtRank] at ht ⊢
        exact Or.inr (Or.inl (by rw [this]))
      · exact Or.inr (Or.inr (Or.inr ⟨rfl, Or.inr ⟨rfl, ht⟩⟩))
    · exact Or.inl (Or.inr ⟨rfl, Or.inl hs⟩)
  · exact Or.inr (Or.inr (Or.inl h))

theorem ikLt_asymm {a b : ParsedInternalKey} (h : ikLt a b) : ¬ ikLt b a := by
  intro h'
  exact ikLt_irrefl a (ikLt_trans h h')

/-! ## Memtable (`src/memtable/mod.rs`) -/

/-- A stored memtable entry: internal key and user value. -/
abbrev Entry := ParsedInternalKey × Bytes

/-- Strict entry order: the skip map is keyed by `ParsedInternalKey`. -/
def entLt (a b : Entry) : Prop := ikLt a.1 b.1

/-- Modelled from the spec: Value::size (src/value.rs is not in the slice);
an item's approximate byte size, key length plus value length. -/
def Value.size (v : Value) : Nat := v.key.length + v.value.length

/-- `2^32`, the modulus of the `AtomicU32` size counter. -/
def U32M : Nat := 2 ^ 32

/-- The memtable: a sorted map `ParsedInternalKey → UserValue` (the
`SkipMap`, kept as a strictly `ikLt`-sorted association list) plus the
approximate size counter (`AtomicU32`). -/
structure MemTable where
  items : List Entry
  approximate_size : Nat
deriving DecidableEq, Repr

/-- Insertion into the sorted association list; an existing equal internal
key is replaced (crossbeam `SkipMap::insert` removes an existing entry
with the same key). -/
def sortedInsertE (k : ParsedInternalKey) (v : Bytes) : List Entry → List Entry
  | [] => [(k, v)]
  | e :: rest =>
    if ikLt k e.1 then (k, v) :: e :: rest
    else if k = e.1 then (k, v) :: rest
    else e :: sortedInsertE k v rest

/-- `MemTable::insert`: wrapping-add the item size to the `AtomicU32`
counter, insert `(key, seqno, value_type) → value` into the skip map,
return `(item_size, size_before + item_size)` (both as `u32`). -/
def MemTable.insert (m : MemTable) (item : Value) : MemTable × Nat × Nat :=
  let item_size := item.size % U32M
  let size_before := m.approximate_size
  let new_size := (size_before + item_size) % U32M
  (⟨sortedInsertE ⟨item.key, item.seqno, item.value_type⟩ item.value m.items, new_size⟩,
    item_size, new_size)

/-- `MemTable::len`: number of items in the skip map. -/
def MemTable.len (m : MemTable) : Nat := m.items.length

/-- `MemTable::size`: the approximate size counter. -/
def MemTable.size (m : MemTable) : Nat := m.approximate_size

/-- The range start used by `MemTable::get`:
`ParsedInternalKey::new(prefix, SeqNo::MAX, ValueType::Tombstone)`. -/
def lowerBound (key : Bytes) : ParsedInternalKey := ⟨key, SeqNoMAX, .tombstone⟩

/-- Rebuild a `Value` from a stored entry (the `Value::from` conversion). -/
def toValue (e : Entry) : Value := ⟨e.1.user_key, e.2, e.1.seqno, e.1.value_type⟩

/-- The scan loop of `MemTable::get`: return `None` as soon as the entry's
user key is past the searched key; without a snapshot return the first
entry, with a snapshot skip entries whose `seqno` is not `< seqno`. -/
def getLoop (key : Bytes) (snap : Option SeqNo) : List Entry → Option Value
  | [] => none
  | e :: rest =>
    if bytesLt key e.1.user_key then none
    else
      match snap with
      | some s => if e.1.seqno < s then some (toValue e) else getLoop key snap rest
      | none => some (toValue e)

/-- `MemTable::get`: scan the skip map from
`(key, SeqNo::MAX, Tombstone)..` (all entries not below the range start,
in order) through the loop above. -/
def MemTable.get (m : MemTable) (key : Bytes) (snap : Option SeqNo) : Option Value :=
  getLoop key snap (m.items.filter fun e => decide (¬ ikLt e.1 (lowerBound key)))

/-- The empty memtable (`MemTable::default`). -/
def MemTable.empty : MemTable := ⟨[], 0⟩

/-- A memtable built by a sequence of inserts into the empty memtable:
the reachable memtable states. -/
def ofEntries (vs : List Value) : MemTable :=
  vs.foldl (fun m v => (m.insert v).1) MemTable.empty

/-- Byte encoding of a string literal, for the spec's concrete scenarios. -/
def strBytes (s : String) : Bytes := s.data.map Char.toNat

/-! ## Memtable lemmas -/

theorem mem_sortedInsertE {k : ParsedInternalKey} {v : Bytes} {l : List Entry}
    {x : Entry} (h : x ∈ sortedInsertE k v l) : x = (k, v) ∨ x ∈ l := by
  induction l with
  | nil => simpa [sortedInsertE] using h
  | cons e rest ih =>
    by_cases h₁ : ikLt k e.1
    · simp only [sortedInsertE, if_pos h₁, List.mem_cons] at h ⊢
      tauto
    · by_cases h₂ : k = e.1
      · simp only [sortedInsertE, if_neg h₁, if_pos h₂, List.mem_cons] at h ⊢
        tauto
      · simp only [sortedInsertE, if_neg h₁, if_neg h₂, List.mem_cons] at h
        rcases h with rfl | h
        · exact Or.inr (List.mem_cons_self _ _)
        · rcases ih h with h | h
          · exact Or.inl h
          · exact Or.inr (List.mem_cons_of_mem _ h)

theorem sortedInsertE_pairwise {l : List Entry} (k : ParsedInternalKey) (v : Bytes)
    (h : l.Pairwise entLt) : (sortedInsertE k v l).Pairwise entLt := by
  induction l with
  | nil => simp [sortedInsertE, entLt]
  | cons e rest ih =>
    rcases List.pairwise_cons.mp h with ⟨he, hr⟩
    by_cases h₁ : ikLt k e.1
    · simp only [sortedInsertE, if_pos h₁]
      refine List.pairwise_cons.mpr ⟨?_, h⟩
      intro x hx
      rcases List.mem_cons.mp hx with rfl | hx
      · exact h₁
      · exact ikLt_trans h₁ (he x hx)
    · by_cases h₂ : k = e.1
      · simp only [sortedInsertE, if_neg h₁, if_pos h₂]
        refine List.pairwise_cons.mpr ⟨?_, hr⟩
        intro x hx
        exact h₂ ▸ he x hx
      · simp only [sortedInsertE, if_neg h₁, if_neg h₂]
        refine List.pairwise_cons.mpr ⟨?_, ih hr⟩
        intro x hx
        rcases mem_sortedInsertE hx with rfl | hx
        · rcases ikLt_trichot k e.1 with h' | h' | h'
          · exact absurd h' h₁
          · exact absurd h' h₂
          · exact h'
        · exact he x hx

theorem foldl_insert_pairwise (vs : List Value) (m : MemTable)
    (h : m.items.Pairwise entLt) :
    (vs.foldl (fun m v => (m.insert v).1) m).items.Pairwise entLt := by
  induction vs generalizing m with
  | nil => exact h
  | cons v vs ih =>
    exact ih _ (sortedInsertE_pairwise _ _ h)

theorem ofEntries_pairwise (vs : List Value) : (ofEntries vs).items.Pairwise entLt :=
  foldl_insert_pairwise vs MemTable.empty (by simp [MemTable.empty])

theorem foldl_insert_seqno (P : SeqNo → Prop) (vs : List Value) (m : MemTable)
    (hm : ∀ e ∈ m.items, P e.1.seqno) (hv : ∀ v ∈ vs, P v.seqno) :
    ∀ e ∈ (vs.foldl (fun m v => (m.insert v).1) m).items, P e.1.seqno := by
  induction vs generalizing m with
  | nil => exact hm
  | cons v vs ih =>
    refine ih _ ?_ fun w hw => hv w (List.mem_cons_of_mem _ hw)
    intro e he
    rcases mem_sortedInsertE he with rfl | he
    · exact hv v (List.mem_cons_self _ _)
    · exact hm e he

theorem ofEntries_seqno_lt {vs : List Value}
    (h : ∀ v ∈ vs, v.seqno < SeqNoMAX) :
    ∀ e ∈ (ofEntries vs).items, e.1.seqno < SeqNoMAX :=
  foldl_insert_seqno (· < SeqNoMAX) vs MemTable.empty (by simp [MemTable.empty]) h

theorem not_ikLt_lowerBound {e : ParsedInternalKey} {key : Bytes}
    (huk : e.user_key = key) (hs : e.seqno < SeqNoMAX) :
    ¬ ikLt e (lowerBound key) := by
  rintro (h | ⟨-, h | ⟨h, -⟩⟩)
  · exact bytesLt_irrefl key (huk ▸ h)
  · exact Nat.lt_irrefl _ (Nat.lt_trans hs h)
  · exact Nat.lt_irrefl _ (h ▸ hs)

theorem user_key_eq_of_bounds {e : ParsedInternalKey} {key : Bytes}
    (h₁ : ¬ ikLt e (lowerBound key)) (h₂ : ¬ bytesLt key e.user_key) :
    e.user_key = key := by
  have hb : ¬ bytesLt e.user_key key := fun hb => h₁ (Or.inl hb)
  rcases bytesLt_trichot e.user_key key with h | h | h
  · exact absurd h hb
  · exact h
  · exact absurd h h₂

theorem seqno_le_of_ikLt {a b : ParsedInternalKey}
    (h : ikLt a b) (huk : a.user_key = b.user_key) : b.seqno ≤ a.seqno := by
  rcases h with h | ⟨-, h | ⟨h, -⟩⟩
  · exact absurd h (huk ▸ bytesLt_irrefl b.user_key)
  · exact Nat.le_of_lt h
  · exact Nat.le_of_eq h.symm

theorem getLoop_none_iff_snap (key : Bytes) (s : SeqNo) (F : List Entry)
    (hs : F.Pairwise entLt) (hp : ∀ e ∈ F, ¬ ikLt e.1 (lowerBound key)) :
    getLoop key (some s) F = none ↔ ∀ e ∈ F, e.1.user_key = key → s ≤ e.1.seqno := by
  induction F with
  | nil => simp [getLoop]
  | cons e rest ih =>
    rcases List.pairwise_cons.mp hs with ⟨he, hr⟩
    by_cases hgt : bytesLt key e.1.user_key
    · simp only [getLoop, if_pos hgt]
      constructor
      · intro _ e' he' huk'
        rcases List.mem_cons.mp he' with rfl | he'
        · exact absurd hgt (huk' ▸ bytesLt_irrefl key)
        · have h' := he e' he'
          rcases h' with h' | ⟨h', -⟩
          · exact absurd (huk' ▸ h') (bytesLt_asymm hgt)
          · exact absurd (huk' ▸ hgt) (by rw [← h']; exact bytesLt_irrefl _)
      · intro _
        trivial
    · have huk : e.1.user_key = key :=
        user_key_eq_of_bounds (hp e (List.mem_cons_self _ _)) hgt
      simp only [getLoop, if_neg hgt]
      by_cases hlt : e.1.seqno < s
      · simp only [if_pos hlt]
        constructor
        · intro h
          exact absurd h (by simp)
        · intro h
          exact absurd hlt (Nat.not_lt.mpr (h e (List.mem_cons_self _ _) huk))
      · simp only [if_neg hlt]
        rw [ih hr fun e' he' => hp e' (List.mem_cons_of_mem _ he')]
        constructor
        · intro h e' he' huk'
          rcases List.mem_cons.mp he' with rfl | he'
          · exact Nat.not_lt.mp hlt
          · exact h e' he' huk'
        · intro h e' he' huk'
          exact h e' (List.mem_cons_of_mem _ he') huk'

theorem getLoop_none_iff_latest (key : Bytes) (F : List Entry)
    (hs : F.Pairwise entLt) (hp : ∀ e ∈ F, ¬ ikLt e.1 (lowerBound key)) :
    getLoop key none F = none ↔ ∀ e ∈ F, e.1.user_key ≠ key := by
  induction F with
  | nil => simp [getLoop]
  | cons e rest ih =>
    rcases List.pairwise_cons.mp hs with ⟨he, hr⟩
    by_cases hgt : bytesLt key e.1.user_key
    · simp only [getLoop, if_pos hgt]
      constructor
      · intro _ e' he' huk'
        rcases List.mem_cons.mp he' with rfl | he'
        · exact absurd hgt (huk' ▸ bytesLt_irrefl key)
        · have h' := he e' he'
          rcases h' with h' | ⟨h', -⟩
          · exact absurd (huk' ▸ h') (bytesLt_asymm hgt)
          · exact absurd (huk' ▸ hgt) (by rw [← h']; exact bytesLt_irrefl _)
      · intro _
        trivial
    · have huk : e.1.user_key = key :=
        user_key_eq_of_bounds (hp e (List.mem_cons_self _ _)) hgt
      simp only [getLoop, if_neg hgt]
      constructor
      · intro h
        exact absurd h (by simp)
      · intro h
        exact absurd huk (h e (List.mem_cons_self _ _))

theorem getLoop_some_snap {key : Bytes} {s : SeqNo} {F : List Entry} {r : Value}
    (hs : F.Pairwise entLt) (hp : ∀ e ∈ F, ¬ ikLt e.1 (lowerBound key))
    (h : getLoop key (some s) F = some r) :
    ∃ e ∈ F, r = toValue e ∧ e.1.user_key = key ∧ e.1.seqno < s ∧
      ∀ e' ∈ F, e'.1.user_key = key → e'.1.seqno < s → e'.1.seqno ≤ e.1.seqno := by
  induction F with
  | nil => exact absurd h (by simp [getLoop])
  | cons e rest ih =>
    rcases List.pairwise_cons.mp hs with ⟨he, hr⟩
    by_cases hgt : bytesLt key e.1.user_key
    · exact absurd h (by simp [getLoop, if_pos hgt])
    · have huk : e.1.user_key = key :=
        user_key_eq_of_bounds (hp e (List.mem_cons_self _ _)) hgt
      simp only [getLoop, if_neg hgt] at h
      by_cases hlt : e.1.seqno < s
      · simp only [if_pos hlt, Option.some.injEq] at h
        refine ⟨e, List.mem_cons_self _ _, h.symm, huk, hlt, ?_⟩
        intro e' he' huk' _
        rcases List.mem_cons.mp he' with rfl | he'
        · exact Nat.le_refl _
        · exact seqno_le_of_ikLt (he e' he') (huk.trans huk'.symm)
      · simp only [if_neg hlt] at h
        obtain ⟨e₀, he₀, hre, huk₀, hs₀, hmax⟩ :=
          ih hr (fun e' he' => hp e' (List.mem_cons_of_mem _ he')) h
        refine ⟨e₀, List.mem_cons_of_mem _ he₀, hre, huk₀, hs₀, ?_⟩
        intro e' he' huk' hlt'
        rcases List.mem_cons.mp he' with rfl | he'
        · exact absurd hlt' hlt
        · exact hmax e' he' huk' hlt'

theorem getLoop_some_latest {key : Bytes} {F : List Entry} {r : Value}
    (hs : F.Pairwise entLt) (hp : ∀ e ∈ F, ¬ ikLt e.1 (lowerBound key))
    (h : getLoop key none F = some r) :
    ∃ e ∈ F, r = toValue e ∧ e.1.user_key = key ∧
      ∀ e' ∈ F, e'.1.user_key = key → e'.1.seqno ≤ e.1.seqno := by
  induction F with
  | nil => exact absurd h (by simp [getLoop])
  | cons e rest ih =>
    rcases List.pairwise_cons.mp hs with ⟨he, hr⟩
    by_cases hgt : bytesLt key e.1.user_key
    · exact absurd h (by simp [getLoop, if_pos hgt])
    · have huk : e.1.user_key = key :=
        user_key_eq_of_bounds (hp e (List.mem_cons_self _ _)) hgt
      simp only [getLoop, if_neg hgt, Option.some.injEq] at h
      refine ⟨e, List.mem_cons_self _ _, h.symm, huk, ?_⟩
      intro e' he' huk'
      rcases List.mem_cons.mp he' with rfl | he'
      · exact Nat.le_refl _
      · exact seqno_le_of_ikLt (he e' he') (huk.trans huk'.symm)

/-- Transfer lemma: the filtered scan range of `MemTable.get` contains
exactly the stored entries not below the range start, and every stored
entry for the searched key with a realistic seqno is in it. -/
theorem mem_scanRange {m : MemTable} {key : Bytes} {e : Entry} :
    e ∈ m.items.filter (fun e => decide (¬ ikLt e.1 (lowerBound key))) ↔
      e ∈ m.items ∧ ¬ ikLt e.1 (lowerBound key) := by
  simp [List.mem_filter]

theorem scanRange_mem_of_key {m : MemTable} {key : Bytes} {e : Entry}
    (he : e ∈ m.items) (huk : e.1.user_key = key) (hsq : e.1.seqno < SeqNoMAX) :
    e ∈ m.items.filter (fun e => decide (¬ ikLt e.1 (lowerBound key))) :=
  mem_scanRange.mpr ⟨he, not_ikLt_lowerBound huk hsq⟩

theorem scanRange_pairwise (m : MemTable) (key : Bytes)
    (h : m.items.Pairwise entLt) :
    (m.items.filter (fun e => decide (¬ ikLt e.1 (lowerBound key)))).Pairwise entLt :=
  h.sublist (List.filter_sublist _)

/-- Characterization of `MemTable.get` with a snapshot, `none` case: the
read misses exactly when every stored entry for the key has
`seqno ≥ snapshot_seqno`. -/
theorem get_snap_none_iff (vs : List Value) (k : Bytes) (s : SeqNo)
    (hseq : ∀ v ∈ vs, v.seqno < SeqNoMAX) :
    (ofEntries vs).get k (some s) = none ↔
      ∀ e ∈ (ofEntries vs).items, e.1.user_key = k → s ≤ e.1.seqno := by
  have hsort := ofEntries_pairwise vs
  have hbound := ofEntries_seqno_lt hseq
  rw [MemTable.get,
    getLoop_none_iff_snap k s _ (scanRange_pairwise _ k hsort)
      (fun e he => (mem_scanRange.mp he).2)]
  constructor
  · intro h e he huk
    exact h e (scanRange_mem_of_key he huk (hbound e he)) huk
  · intro h e he huk
    exact h e (mem_scanRange.mp he).1 huk

/-- Characterization of `MemTable.get` with a snapshot, `some` case: the
returned entry is stored, has the searched key, `seqno < snapshot_seqno`,
and the maximal such seqno. -/
theorem get_snap_some (vs : List Value) (k : Bytes) (s : SeqNo)
    (hseq : ∀ v ∈ vs, v.seqno < SeqNoMAX) {r : Value}
    (h : (ofEntries vs).get k (some s) = some r) :
    ∃ e ∈ (ofEntries vs).items, r = toValue e ∧ e.1.user_key = k ∧ e.1.seqno < s ∧
      ∀ e' ∈ (ofEntries vs).items, e'.1.user_key = k → e'.1.seqno < s →
        e'.1.seqno ≤ e.1.seqno := by
  have hsort := ofEntries_pairwise vs
  have hbound := ofEntries_seqno_lt hseq
  rw [MemTable.get] at h
  obtain ⟨e, he, hre, huk, hlt, hmax⟩ :=
    getLoop_some_snap (scanRange_pairwise _ k hsort)
      (fun e he => (mem_scanRange.mp he).2) h
  refine ⟨e, (mem_scanRange.mp he).1, hre, huk, hlt, ?_⟩
  intro e' he' huk' hlt'
  exact hmax e' (scanRange_mem_of_key he' huk' (hbound e' he')) huk' hlt'

/-- Characterization of `MemTable.get` without a snapshot, `none` case. -/
theorem get_latest_none_iff (vs : List Value) (k : Bytes)
    (hseq : ∀ v ∈ vs, v.seqno < SeqNoMAX) :
    (ofEntries vs).get k none = none ↔
      ∀ e ∈ (ofEntries vs).items, e.1.user_key ≠ k := by
  have hsort := ofEntries_pairwise vs
  have hbound := ofEntries_seqno_lt hseq
  rw [MemTable.get,
    getLoop_none_iff_latest k _ (scanRange_pairwise _ k hsort)
      (fun e he => (mem_scanRange.mp he).2)]
  constructor
  · intro h e he huk
    exact h e (scanRange_mem_of_key he huk (hbound e he)) huk
  · intro h e he huk
    exact h e (mem_scanRange.mp he).1 huk

/-- Characterization of `MemTable.get` without a snapshot, `some` case:
the returned entry is stored, has the searched key, and the maximal seqno
among the stored entries of that key. -/
theorem get_latest_some (vs : List Value) (k : Bytes)
    (hseq : ∀ v ∈ vs, v.seqno < SeqNoMAX) {r : Value}
    (h : (ofEntries vs).get k none = some r) :
    ∃ e ∈ (ofEntries vs).items, r = toValue e ∧ e.1.user_key = k ∧
      ∀ e' ∈ (ofEntries vs).items, e'.1.user_key = k → e'.1.seqno ≤ e.1.seqno := by
  have hsort := ofEntries_pairwise vs
  have hbound := ofEntries_seqno_lt hseq
  rw [MemTable.get] at h
  obtain ⟨e, he, hre, huk, hmax⟩ :=
    getLoop_some_latest (scanRange_pairwise _ k hsort)
      (fun e he => (mem_scanRange.mp he).2) h
  refine ⟨e, (mem_scanRange.mp he).1, hre, huk, ?_⟩
  intro e' he' huk'
  exact hmax e' (scanRange_mem_of_key he' huk' (hbound e' he')) huk'

/-! ## Size counter and length lemmas (for the `insert`/`len` claims) -/

theorem insert_size_eq (m : MemTable) (v : Value) :
    (m.insert v).1.size = (m.approximate_size + Value.size v % U32M) % U32M := rfl

theorem size_eq (m : MemTable) : m.size = m.approximate_size := rfl

theorem add_mod_U32M (a s : Nat) : (a + s % U32M) % U32M = (a + s) % U32M := by
  rw [Nat.add_mod, Nat.mod_mod_of_dvd s (dvd_refl U32M), ← Nat.add_mod]

theorem foldl_insert_approx (vs : List Value) (m : MemTable)
    (h : m.approximate_size < U32M) :
    (vs.foldl (fun m v => (m.insert v).1) m).approximate_size
      = (m.approximate_size + (vs.map Value.size).sum) % U32M := by
  induction vs generalizing m with
  | nil => simpa using (Nat.mod_eq_of_lt h).symm
  | cons v vs ih =>
    have step : ((m.insert v).1).approximate_size
        = (m.approximate_size + v.size) % U32M := add_mod_U32M _ _
    rw [List.foldl_cons, ih _ (step ▸ Nat.mod_lt _ (by norm_num [U32M])), step,
      Nat.mod_add_mod, List.map_cons, List.sum_cons, Nat.add_assoc]

/-- The size counter of a reachable memtable is the wrapped sum of the
sizes of every item ever inserted. -/
theorem ofEntries_approx (vs : List Value) :
    (ofEntries vs).approximate_size = (vs.map Value.size).sum % U32M := by
  simpa [MemTable.empty] using
    foldl_insert_approx vs MemTable.empty (by norm_num [MemTable.empty, U32M])

theorem sortedInsertE_length_of_mem {k : ParsedInternalKey} {v : Bytes}
    {l : List Entry} (hs : l.Pairwise entLt) (hm : k ∈ l.map Prod.fst) :
    (sortedInsertE k v l).length = l.length := by
  induction l with
  | nil => simp at hm
  | cons e rest ih =>
    rcases List.pairwise_cons.mp hs with ⟨he, hr⟩
    by_cases h₁ : ikLt k e.1
    · exfalso
      rcases List.mem_map.mp hm with ⟨x, hx, hk⟩
      rcases List.mem_cons.mp hx with rfl | hx
      · exact ikLt_irrefl k (hk ▸ h₁)
      · exact ikLt_irrefl k (ikLt_trans h₁ (hk ▸ he x hx))
    · by_cases h₂ : k = e.1
      · simp [sortedInsertE, if_neg h₁, if_pos h₂]
      · have hm' : k ∈ rest.map Prod.fst := by
          rcases List.mem_map.mp hm with ⟨x, hx, hk⟩
          rcases List.mem_cons.mp hx with rfl | hx
          · exact absurd hk.symm h₂
          · exact List.mem_map.mpr ⟨x, hx, hk⟩
        simp [sortedInsertE, if_neg h₁, if_neg h₂, ih hr hm']

theorem sortedInsertE_mem_self (k : ParsedInternalKey) (v : Bytes)
    (l : List Entry) : (k, v) ∈ sortedInsertE k v l := by
  induction l with
  | nil => simp [sortedInsertE]
  | cons e rest ih =>
    by_cases h₁ : ikLt k e.1
    · simp [sortedInsertE, if_pos h₁]
    · by_cases h₂ : k = e.1
      · simp [sortedInsertE, if_neg h₁, if_pos h₂]
      · simp only [sortedInsertE, if_neg h₁, if_neg h₂]
        exact List.mem_cons_of_mem _ ih

theorem mem_value_unique {l : List Entry} (hs : l.Pairwise entLt)
    {k : ParsedInternalKey} {w w' : Bytes}
    (h₁ : (k, w) ∈ l) (h₂ : (k, w') ∈ l) : w = w' := by
  induction l with
  | nil => simp at h₁
  | cons e rest ih =>
    rcases List.pairwise_cons.mp hs with ⟨he, hr⟩
    rcases List.mem_cons.mp h₁ with hm1 | hm1
    · subst hm1
      rcases List.mem_cons.mp h₂ with hm2 | hm2
      · injection hm2 with hk hw
        exact hw.symm
      · have hlt := he _ hm2
        simp only [entLt] at hlt
        exact absurd hlt (ikLt_irrefl k)
    · rcases List.mem_cons.mp h₂ with hm2 | hm2
      · subst hm2
        have hlt := he _ hm1
        simp only [entLt] at hlt
        exact absurd hlt (ikLt_irrefl k)
      · exact ih hr hm1 hm2

/-! ## Concrete scenario inputs (spec §8) -/

/-- Key of the MVCC point-read scenario. -/
def helloKey : Bytes := strBytes "hello-key-999991"

/-- The shorter key that misses. -/
def helloKeyShort : Bytes := strBytes "hello-key-99999"

/-- First value of the scenario. -/
def helloVal1 : Bytes := strBytes "hello-value-999991"

/-- Second value of the scenario. -/
def helloVal2 : Bytes := strBytes "hello-value-999991-2"

/-- The two inserts of the MVCC point-read scenario. -/
def helloEntries : List Value :=
  [⟨helloKey, helloVal1, 0, .value⟩, ⟨helloKey, helloVal2, 1, .value⟩]

/-- The five inserts of the highest-seqno scenario. -/
def abcEntries : List Value :=
  (List.range 5).map fun s => ⟨strBytes "abc", strBytes "abc", s, .value⟩

/-- Inserts used by the snapshot-boundary counterexample. -/
def cexEntries : List Value := [⟨[0], [1], 0, .value⟩, ⟨[0], [2], 1, .value⟩]

/-- Single insert used by the snapshot-read witness. -/
def snapWitnessEntries : List Value := [⟨[0], [5], 0, .value⟩]

/-! ## Claim C1 (corrected) -/

/-- C1 (amended): for every reachable memtable, user key k and snapshot
seqno s, MemTable::get(k, Some(s)) returns the stored entry of k with the
highest seqno that is strictly less than s, or none if k has no stored
entry with seqno < s. (The claim's boundary "highest seqno ≤ s" does not
hold: the scan only accepts `seqno < snapshot_seqno`.) -/
theorem memtable_snapshot_read (vs : List Value) (k : Bytes) (s : SeqNo)
    (hseq : ∀ v ∈ vs, v.seqno < SeqNoMAX) :
    ((ofEntries vs).get k (some s) = none ↔
      ∀ e ∈ (ofEntries vs).items, e.1.user_key = k → ¬ e.1.seqno < s) ∧
    ∀ r, (ofEntries vs).get k (some s) = some r →
      ∃ e ∈ (ofEntries vs).items, r = toValue e ∧ e.1.user_key = k ∧
        e.1.seqno < s ∧
        ∀ e' ∈ (ofEntries vs).items, e'.1.user_key = k → e'.1.seqno < s →
          e'.1.seqno ≤ e.1.seqno := by
  refine ⟨?_, fun r h => get_snap_some vs k s hseq h⟩
  rw [get_snap_none_iff vs k s hseq]
  simp [Nat.not_lt]

/-- C1 counterexample: after inserting (k, v1, 0) and (k, v2, 1), the
entry of k with the highest seqno ≤ 1 is the seqno-1 entry, yet
get(k, Some(1)) returns the seqno-0 entry, refuting "highest seqno ≤ s". -/
theorem memtable_snapshot_read_cex :
    (⟨⟨[0], 1, .value⟩, [2]⟩ : Entry) ∈ (ofEntries cexEntries).items ∧
    (∀ e ∈ (ofEntries cexEntries).items, e.1.user_key = [0] → e.1.seqno ≤ 1) ∧
    (ofEntries cexEntries).get [0] (some 1) = some ⟨[0], [1], 0, .value⟩ ∧
    (ofEntries cexEntries).get [0] (some 1) ≠
      some (toValue ⟨⟨[0], 1, .value⟩, [2]⟩) := by
  decide

/-- Witness for C1's amended theorem at a concrete input. -/
theorem memtable_snapshot_read_witness :
    ((ofEntries snapWitnessEntries).get [0] (some 1) = none ↔
      ∀ e ∈ (ofEntries snapWitnessEntries).items,
        e.1.user_key = [0] → ¬ e.1.seqno < 1) ∧
    ∀ r, (ofEntries snapWitnessEntries).get [0] (some 1) = some r →
      ∃ e ∈ (ofEntries snapWitnessEntries).items, r = toValue e ∧
        e.1.user_key = [0] ∧ e.1.seqno < 1 ∧
        ∀ e' ∈ (ofEntries snapWitnessEntries).items,
          e'.1.user_key = [0] → e'.1.seqno < 1 → e'.1.seqno ≤ e.1.seqno :=
  memtable_snapshot_read snapWitnessEntries [0] 1 (by decide)

/-! ## Claim C2 (confirmed) -/

/-- C2: with a snapshot s, the scan skips entries of k with seqno ≥ s and
returns the first (maximal-seqno) stored entry of k with seqno < s, or
none when every stored entry of k has seqno ≥ s (in particular when the
first entry of a different user key is reached); concretely, after
inserting (helloKey, v1, 0) and (helloKey, v2, 1), get(helloKey, Some 1)
returns v1, get(helloKey, Some 2) returns v2, and the shorter key misses. -/
theorem memtable_get_snapshot_scan (vs : List Value) (k : Bytes) (s : SeqNo)
    (hseq : ∀ v ∈ vs, v.seqno < SeqNoMAX) :
    ((ofEntries vs).get k (some s) = none ↔
      ∀ e ∈ (ofEntries vs).items, e.1.user_key = k → s ≤ e.1.seqno) ∧
    (∀ r, (ofEntries vs).get k (some s) = some r →
      ∃ e ∈ (ofEntries vs).items, r = toValue e ∧ e.1.user_key = k ∧
        e.1.seqno < s ∧
        ∀ e' ∈ (ofEntries vs).items, e'.1.user_key = k → e'.1.seqno < s →
          e'.1.seqno ≤ e.1.seqno) ∧
    (ofEntries helloEntries).get helloKey (some 1) =
      some ⟨helloKey, helloVal1, 0, .value⟩ ∧
    (ofEntries helloEntries).get helloKey (some 2) =
      some ⟨helloKey, helloVal2, 1, .value⟩ ∧
    (ofEntries helloEntries).get helloKeyShort (some 1) = none ∧
    (ofEntries helloEntries).get helloKeyShort (some 2) = none :=
  ⟨get_snap_none_iff vs k s hseq, fun r h => get_snap_some vs k s hseq h,
    by decide, by decide, by decide, by decide⟩

/-- Witness for C2's theorem at the spec's concrete input. -/
theorem memtable_get_snapshot_scan_witness :
    ((ofEntries helloEntries).get helloKey (some 1) = none ↔
      ∀ e ∈ (ofEntries helloEntries).items,
        e.1.user_key = helloKey → 1 ≤ e.1.seqno) ∧
    (∀ r, (ofEntries helloEntries).get helloKey (some 1) = some r →
      ∃ e ∈ (ofEntries helloEntries).items, r = toValue e ∧
        e.1.user_key = helloKey ∧ e.1.seqno < 1 ∧
        ∀ e' ∈ (ofEntries helloEntries).items,
          e'.1.user_key = helloKey → e'.1.seqno < 1 →
            e'.1.seqno ≤ e.1.seqno) ∧
    (ofEntries helloEntries).get helloKey (some 1) =
      some ⟨helloKey, helloVal1, 0, .value⟩ ∧
    (ofEntries helloEntries).get helloKey (some 2) =
      some ⟨helloKey, helloVal2, 1, .value⟩ ∧
    (ofEntries helloEntries).get helloKeyShort (some 1) = none ∧
    (ofEntries helloEntries).get helloKeyShort (some 2) = none :=
  memtable_get_snapshot_scan helloEntries helloKey 1 (by decide)

/-! ## Claim C5 (confirmed) -/

/-- C5: MemTable::get(k, None) returns a stored entry of user key k with
the maximal seqno among entries of k, or none when no stored entry has
user key k; after inserting ("abc", "abc", s) for s ∈ {0..4},
get("abc", None) returns the seqno-4 entry. -/
theorem memtable_get_latest (vs : List Value) (k : Bytes)
    (hseq : ∀ v ∈ vs, v.seqno < SeqNoMAX) :
    ((ofEntries vs).get k none = none ↔
      ∀ e ∈ (ofEntries vs).items, e.1.user_key ≠ k) ∧
    (∀ r, (ofEntries vs).get k none = some r →
      ∃ e ∈ (ofEntries vs).items, r = toValue e ∧ e.1.user_key = k ∧
        ∀ e' ∈ (ofEntries vs).items, e'.1.user_key = k →
          e'.1.seqno ≤ e.1.seqno) ∧
    (ofEntries abcEntries).get (strBytes "abc") none =
      some ⟨strBytes "abc", strBytes "abc", 4, .value⟩ :=
  ⟨get_latest_none_iff vs k hseq, fun r h => get_latest_some vs k hseq h,
    by decide⟩

/-- Witness for C5's theorem at the spec's concrete input. -/
theorem memtable_get_latest_witness :
    ((ofEntries abcEntries).get (strBytes "abc") none = none ↔
      ∀ e ∈ (ofEntries abcEntries).items, e.1.user_key ≠ strBytes "abc") ∧
    (∀ r, (ofEntries abcEntries).get (strBytes "abc") none = some r →
      ∃ e ∈ (ofEntries abcEntries).items, r = toValue e ∧
        e.1.user_key = strBytes "abc" ∧
        ∀ e' ∈ (ofEntries abcEntries).items,
          e'.1.user_key = strBytes "abc" → e'.1.seqno ≤ e.1.seqno) ∧
    (ofEntries abcEntries).get (strBytes "abc") none =
      some ⟨strBytes "abc", strBytes "abc", 4, .value⟩ :=
  memtable_get_latest abcEntries (strBytes "abc") (by decide)

/-! ## Claim C9 (corrected) -/

/-- C9 (amended): the size counter of a reachable memtable is the sum of
the sizes of all items ever inserted, modulo 2^32; inserting an item whose
internal key already exists replaces the stored value, leaves len()
unchanged, and still adds the item's full size to the counter (wrapping);
the counter grows by exactly the item's size as long as the accumulated
sum stays below 2^32 — but, being a wrapping u32, it can decrease once the
accumulated sum overflows (which refutes the claim's "never decreases"). -/
theorem memtable_size_counter (vs : List Value) (v : Value)
    (hmem : (⟨v.key, v.seqno, v.value_type⟩ : ParsedInternalKey) ∈
      (ofEntries vs).items.map Prod.fst) :
    (ofEntries vs).size = (vs.map Value.size).sum % U32M ∧
    ((ofEntries vs).insert v).1.len = (ofEntries vs).len ∧
    (⟨⟨v.key, v.seqno, v.value_type⟩, v.value⟩ : Entry) ∈
      ((ofEntries vs).insert v).1.items ∧
    (∀ w, (⟨⟨v.key, v.seqno, v.value_type⟩, w⟩ : Entry) ∈
      ((ofEntries vs).insert v).1.items → w = v.value) ∧
    ((ofEntries vs).insert v).1.size =
      ((ofEntries vs).size + v.size % U32M) % U32M ∧
    ((vs.map Value.size).sum + v.size < U32M →
      ((ofEntries vs).insert v).1.size = (ofEntries vs).size + v.size) := by
  have hsort := ofEntries_pairwise vs
  refine ⟨ofEntries_approx vs, ?_, ?_, ?_, ?_, ?_⟩
  · exact sortedInsertE_length_of_mem hsort hmem
  · exact sortedInsertE_mem_self _ _ _
  · intro w hw
    exact mem_value_unique (sortedInsertE_pairwise _ _ hsort) hw
      (sortedInsertE_mem_self _ _ _)
  · simp [MemTable.insert, MemTable.size]
  · intro hlt
    have hv : v.size < U32M := Nat.lt_of_le_of_lt (Nat.le_add_left _ _) hlt
    have hsum : (vs.map Value.size).sum < U32M :=
      Nat.lt_of_le_of_lt (Nat.le_add_right _ _) hlt
    simp only [MemTable.insert, MemTable.size, ofEntries_approx,
      Nat.mod_eq_of_lt hsum, Nat.mod_eq_of_lt hv]
    exact Nat.mod_eq_of_lt hlt

/-- A value large enough to overflow the u32 size counter in two inserts. -/
def bigVal : Bytes := List.replicate (2 ^ 31) 0

/-- First oversized insert. -/
def bigItem1 : Value := ⟨[0], bigVal, 0, .value⟩

/-- Second oversized insert (distinct key). -/
def bigItem2 : Value := ⟨[1], bigVal, 0, .value⟩

/-- C9 counterexample: the wrapping u32 size counter decreases across an
insert once the accumulated size sum exceeds 2^32, refuting "never
decreases". -/
theorem memtable_size_counter_cex :
    ((ofEntries [bigItem1]).insert bigItem2).1.size <
      (ofEntries [bigItem1]).size := by
  have hv1 : bigItem1.value.length = 2 ^ 31 := by
    simp only [bigItem1, bigVal, List.length_replicate]
  have hv2 : bigItem2.value.length = 2 ^ 31 := by
    simp only [bigItem2, bigVal, List.length_replicate]
  have hk1 : bigItem1.key.length = 1 := by
    simp only [bigItem1, List.length_cons, List.length_nil]
  have hk2 : bigItem2.key.length = 1 := by
    simp only [bigItem2, List.length_cons, List.length_nil]
  have h1 : Value.size bigItem1 = 1 + 2 ^ 31 := by
    rw [Value.size, hk1, hv1]
  have h2 : Value.size bigItem2 = 1 + 2 ^ 31 := by
    rw [Value.size, hk2, hv2]
  have ha : (ofEntries [bigItem1]).approximate_size = 1 + 2 ^ 31 := by
    rw [ofEntries_approx, List.map_cons, List.map_nil, List.sum_cons,
      List.sum_nil, h1, Nat.add_zero]
    exact Nat.mod_eq_of_lt (by norm_num [U32M])
  rw [insert_size_eq, size_eq, ha, h2]
  norm_num [U32M]

/-- Witness for C9's amended theorem at a concrete duplicate-key insert. -/
theorem memtable_size_counter_witness :
    (ofEntries [⟨[3], [7], 0, .value⟩]).size =
      ([⟨[3], [7], 0, .value⟩].map Value.size).sum % U32M ∧
    ((ofEntries [⟨[3], [7], 0, .value⟩]).insert ⟨[3], [8], 0, .value⟩).1.len =
      (ofEntries [⟨[3], [7], 0, .value⟩]).len ∧
    (⟨⟨[3], 0, .value⟩, [8]⟩ : Entry) ∈
      ((ofEntries [⟨[3], [7], 0, .value⟩]).insert ⟨[3], [8], 0, .value⟩).1.items ∧
    (∀ w, (⟨⟨[3], 0, .value⟩, w⟩ : Entry) ∈
      ((ofEntries [⟨[3], [7], 0, .value⟩]).insert ⟨[3], [8], 0, .value⟩).1.items →
        w = [8]) ∧
    ((ofEntries [⟨[3], [7], 0, .value⟩]).insert ⟨[3], [8], 0, .value⟩).1.size =
      ((ofEntries [⟨[3], [7], 0, .value⟩]).size +
        (Value.size ⟨[3], [8], 0, .value⟩) % U32M) % U32M ∧
    (([⟨[3], [7], 0, .value⟩].map Value.size).sum +
        (Value.size ⟨[3], [8], 0, .value⟩) < U32M →
      ((ofEntries [⟨[3], [7], 0, .value⟩]).insert ⟨[3], [8], 0, .value⟩).1.size =
        (ofEntries [⟨[3], [7], 0, .value⟩]).size +
          Value.size ⟨[3], [8], 0, .value⟩) :=
  memtable_size_counter [⟨[3], [7], 0, .value⟩] ⟨[3], [8], 0, .value⟩ (by decide)

/-! ## Segment metadata, level manifest, FIFO compaction
(`src/compaction/fifo.rs`) -/

/-- Modelled from the spec: segment Metadata (src/segment/meta.rs is not in
the slice). Fields per spec §3: id, created_at (µs since epoch, u128),
item_count, tombstone_count, key_count, file_size, uncompressed_size,
block_size, block_count, seqno range, compression kind (tag byte),
key_range (min/max user key). -/
structure Metadata where
  id : Nat
  created_at : Nat
  item_count : Nat
  tombstone_count : Nat
  key_count : Nat
  file_size : Nat
  uncompressed_size : Nat
  block_size : Nat
  block_count : Nat
  seqno_min : Nat
  seqno_max : Nat
  compression : Nat
  key_min : Bytes
  key_max : Bytes
deriving DecidableEq, Repr

/-- A segment, as far as the compaction strategy reads it. -/
structure Segment where
  metadata : Metadata
deriving DecidableEq, Repr

/-- Modelled from the spec: the level manifest (src/levels.rs is not in the
slice) — a sequence of levels, each a list of segments; within level 0 the
list is ordered newest to oldest; `resolved_view` yields these levels. -/
structure LevelManifest where
  levels : List (List Segment)
deriving DecidableEq, Repr

/-- Modelled from the spec: LevelManifest::size — total on-disk bytes of
all segments (src/levels.rs is not in the slice). -/
def manifestSize (lvls : LevelManifest) : Nat :=
  (lvls.levels.map fun l => (l.map fun s => s.metadata.file_size).sum).sum

/-- Modelled from the spec: Choice, the compaction strategy result
(src/compaction/mod.rs is not in the slice):
DoNothing, Merge-with-target, or DeleteSegments. -/
inductive Choice where
  | doNothing : Choice
  | merge (level : Nat) (ids : List Nat) (target_level : Nat) : Choice
  | deleteSegments (ids : List Nat) : Choice
deriving DecidableEq, Repr

/-- Modelled from the spec: the maintenance strategy's L0 segment-count
threshold; the slice gives no value, so one is fixed here (no claim
depends on it). -/
def maintenanceThreshold : Nat := 8

/-- Modelled from the spec: the maintenance strategy
(src/compaction/maintenance.rs is not in the slice) merges level-0
segments into a single L0 segment when their count exceeds a threshold,
otherwise does nothing. -/
def maintenanceChoose (lvls : LevelManifest) : Choice :=
  match lvls.levels.head? with
  | none => .doNothing
  | some l0 =>
    if maintenanceThreshold < l0.length then
      .merge 0 (l0.map fun s => s.metadata.id) 0
    else .doNothing

/-- The FIFO strategy's parameters (`Strategy` in fifo.rs): a size limit in
bytes and an optional TTL in seconds. -/
structure FifoStrategy where
  limit : Nat
  ttl_seconds : Option Nat
deriving DecidableEq, Repr

/-- The TTL loop of `Strategy::choose`: for each L0 segment compute
`lifetime_us = now - created_at` (u128 subtraction, which panics on
underflow — modelled as `none`) and collect the ids whose
`lifetime_us / 1000 / 1000` exceeds the TTL. -/
def ttlLoop (now ttl : Nat) : List Segment → Option (List Nat)
  | [] => some []
  | s :: rest =>
    if s.metadata.created_at ≤ now then
      match ttlLoop now ttl rest with
      | none => none
      | some ids =>
        some (if ttl < (now - s.metadata.created_at) / 1000 / 1000 then
            s.metadata.id :: ids
          else ids)
    else none

/-- The over-limit loop of `Strategy::choose`: walk oldest-to-newest,
stop when the remaining excess is 0, saturating-subtract each segment's
file_size and collect its id. -/
def fifoSizeLoop : Nat → List Segment → List Nat
  | _, [] => []
  | excess, s :: rest =>
    if excess = 0 then []
    else s.metadata.id :: fifoSizeLoop (excess - s.metadata.file_size) rest

/-- `Strategy::choose` for the FIFO strategy: `none` models a panic (the
`expect` on the first level, or u128 underflow in the TTL loop). The TTL
ids (if enabled) are collected first, then the over-limit ids over the
reversed (oldest-first) level 0; an empty delete set delegates to the
maintenance strategy. -/
def fifoChoose (strat : FifoStrategy) (lvls : LevelManifest) (now : Nat) :
    Option Choice :=
  match lvls.levels with
  | [] => none
  | first_level :: _ =>
    let ttlIds : Option (List Nat) :=
      match strat.ttl_seconds with
      | some ttl => if 0 < ttl then ttlLoop now ttl first_level else some []
      | none => some []
    match ttlIds with
    | none => none
    | some ids0 =>
      let db_size := manifestSize lvls
      let ids :=
        if strat.limit < db_size then
          ids0 ++ fifoSizeLoop (db_size - strat.limit) first_level.reverse
        else ids0
      some (if ids = [] then maintenanceChoose lvls else .deleteSegments ids)

/-- Total file size of a list of segments. -/
def sumSizes (l : List Segment) : Nat :=
  (l.map fun s => s.metadata.file_size).sum

/-! ## FIFO lemmas -/

theorem ttlLoop_eq_filter (now ttl : Nat) (l : List Segment)
    (h : ∀ s ∈ l, s.metadata.created_at ≤ now) :
    ttlLoop now ttl l =
      some ((l.filter fun s =>
        decide (ttl < (now - s.metadata.created_at) / 1000 / 1000)).map
          fun s => s.metadata.id) := by
  induction l with
  | nil => rfl
  | cons s rest ih =>
    rw [ttlLoop, if_pos (h s (List.mem_cons_self _ _)),
      ih fun t ht => h t (List.mem_cons_of_mem _ ht), List.filter_cons]
    by_cases hp : ttl < (now - s.metadata.created_at) / 1000 / 1000
    · simp [hp]
    · simp [hp]

theorem ttlLoop_none (now ttl : Nat) (l : List Segment)
    (h : ∃ s ∈ l, now < s.metadata.created_at) :
    ttlLoop now ttl l = none := by
  induction l with
  | nil => simp at h
  | cons s rest ih =>
    obtain ⟨t, ht, hlate⟩ := h
    rcases List.mem_cons.mp ht with rfl | ht
    · rw [ttlLoop, if_neg (by omega)]
    · by_cases hs : s.metadata.created_at ≤ now
      · rw [ttlLoop, if_pos hs, ih ⟨t, ht, hlate⟩]
      · rw [ttlLoop, if_neg hs]

theorem fifoSizeLoop_zero (l : List Segment) : fifoSizeLoop 0 l = [] := by
  cases l with
  | nil => rfl
  | cons s rest => rw [fifoSizeLoop, if_pos rfl]

/-- Extensional characterization of the over-limit loop: it deletes the
shortest oldest-first prefix whose cumulative file size reaches the
excess (or everything, when the whole level is too small). -/
theorem fifoSizeLoop_spec (excess : Nat) (l : List Segment)
    (hpos : 0 < excess) :
    ∃ k, fifoSizeLoop excess l = ((l.take k).map fun s => s.metadata.id) ∧
      (∀ j < k, sumSizes (l.take j) < excess) ∧
      (excess ≤ sumSizes (l.take k) ∨ k = l.length) := by
  induction l generalizing excess with
  | nil =>
    exact ⟨0, rfl, fun j hj => absurd hj (Nat.not_lt_zero j), Or.inr rfl⟩
  | cons s rest ih =>
    rw [fifoSizeLoop, if_neg (Nat.pos_iff_ne_zero.mp hpos)]
    by_cases hfs : excess ≤ s.metadata.file_size
    · refine ⟨1, ?_, ?_, Or.inl ?_⟩
      · rw [Nat.sub_eq_zero_of_le hfs, fifoSizeLoop_zero]
        simp
      · intro j hj
        interval_cases j
        simpa [sumSizes] using hpos
      · simpa [sumSizes] using hfs
    · have hlt : s.metadata.file_size < excess := Nat.lt_of_not_le hfs
      obtain ⟨k', hk', hjlt, hend⟩ := ih (excess - s.metadata.file_size)
        (by omega)
      refine ⟨k' + 1, ?_, ?_, ?_⟩
      · rw [hk', List.take_succ_cons, List.map_cons]
      · intro j hj
        cases j with
        | zero => simpa [sumSizes] using hpos
        | succ j' =>
          have hj' : j' < k' := Nat.lt_of_succ_lt_succ hj
          have := hjlt j' hj'
          simp only [List.take_succ_cons, sumSizes, List.map_cons,
            List.sum_cons] at this ⊢
          omega
      · rcases hend with hend | hend
        · refine Or.inl ?_
          simp only [List.take_succ_cons, sumSizes, List.map_cons,
            List.sum_cons]
          simp only [sumSizes] at hend
          omega
        · exact Or.inr (by simp [hend])

/-! ## Claim C3 (confirmed) -/

/-- C3: with ttl_seconds set and > 0, the TTL rule of the FIFO strategy
collects exactly the L0 segment ids whose lifetime in whole seconds,
(now_us − created_at_us) / 10^6, strictly exceeds ttl_seconds; a segment
whose lifetime equals ttl_seconds is not collected. -/
theorem fifo_ttl_rule (now ttl : Nat) (level0 : List Segment)
    (hnow : ∀ s ∈ level0, s.metadata.created_at ≤ now)
    (hids : (level0.map fun s => s.metadata.id).Nodup) :
    ∃ ids, ttlLoop now ttl level0 = some ids ∧
      ids = (level0.filter fun s =>
        decide (ttl < (now - s.metadata.created_at) / 1000000)).map
          (fun s => s.metadata.id) ∧
      (∀ s ∈ level0,
        (s.metadata.id ∈ ids ↔ ttl < (now - s.metadata.created_at) / 1000000)) ∧
      (∀ s ∈ level0,
        (now - s.metadata.created_at) / 1000000 = ttl → s.metadata.id ∉ ids) := by
  have hdiv : ∀ x : Nat, x / 1000 / 1000 = x / 1000000 := fun x => by
    rw [Nat.div_div_eq_div_mul]
  refine ⟨_, ttlLoop_eq_filter now ttl level0 hnow, by simp [hdiv], ?_, ?_⟩
  · intro s hs
    constructor
    · intro hmem
      simp only [List.mem_map, List.mem_filter, decide_eq_true_eq] at hmem
      obtain ⟨t, ⟨ht, hp⟩, hid⟩ := hmem
      have : t = s := List.inj_on_of_nodup_map hids ht hs hid
      rw [← hdiv]
      exact this ▸ hp
    · intro hp
      refine List.mem_map.mpr ⟨s, List.mem_filter.mpr ⟨hs, ?_⟩, rfl⟩
      simp [hdiv, hp]
  · intro s hs heq hmem
    simp only [List.mem_map, List.mem_filter, decide_eq_true_eq] at hmem
    obtain ⟨t, ⟨ht, hp⟩, hid⟩ := hmem
    have : t = s := List.inj_on_of_nodup_map hids ht hs hid
    subst this
    rw [hdiv, heq] at hp
    exact Nat.lt_irrefl ttl hp

/-- A concrete segment builder for the FIFO scenarios. -/
def mkSeg (i c f : Nat) : Segment := ⟨⟨i, c, 0, 0, 0, f, 0, 0, 0, 0, 0, 0, [], []⟩⟩

/-- Witness for C3 at the spec's TTL scenario timestamps: ttl = 5000 s,
segment 1 created at 1 µs (expired), segment 2 created now (fresh). -/
theorem fifo_ttl_rule_witness :
    ∃ ids, ttlLoop 10000000000 5000 [mkSeg 2 10000000000 1, mkSeg 1 1 1] = some ids ∧
      ids = ([mkSeg 2 10000000000 1, mkSeg 1 1 1].filter fun s =>
        decide (5000 < (10000000000 - s.metadata.created_at) / 1000000)).map
          (fun s => s.metadata.id) ∧
      (∀ s ∈ [mkSeg 2 10000000000 1, mkSeg 1 1 1],
        (s.metadata.id ∈ ids ↔
          5000 < (10000000000 - s.metadata.created_at) / 1000000)) ∧
      (∀ s ∈ [mkSeg 2 10000000000 1, mkSeg 1 1 1],
        (10000000000 - s.metadata.created_at) / 1000000 = 5000 →
          s.metadata.id ∉ ids) :=
  fifo_ttl_rule 10000000000 5000 [mkSeg 2 10000000000 1, mkSeg 1 1 1]
    (by decide) (by decide)

/-! ## Claim C4 (confirmed) -/

/-- The manifest of the spec's over-limit scenario: ids 1..4 added in
order (newest first within L0), each with file_size 1; three empty lower
levels. -/
def fourSegManifest : LevelManifest :=
  ⟨[[mkSeg 4 4 1, mkSeg 3 3 1, mkSeg 2 2 1, mkSeg 1 1 1], [], [], []]⟩

/-- C4: when the total size exceeds the limit (and ttl is unset), choose
deletes the shortest oldest-first prefix of L0 whose cumulative file size
covers the excess (or all of L0), returning DeleteSegments of those ids;
with limit 2 and four size-1 segments (ids 1..4, oldest first) it returns
DeleteSegments [1, 2]. -/
theorem fifo_size_rule (limit now : Nat) (L0 : List Segment)
    (rest : List (List Segment))
    (hsz : limit < manifestSize ⟨L0 :: rest⟩)
    (hne : L0 ≠ []) :
    (∃ k, fifoChoose ⟨limit, none⟩ ⟨L0 :: rest⟩ now =
        some (.deleteSegments ((L0.reverse.take k).map fun s => s.metadata.id)) ∧
      0 < k ∧
      (∀ j < k, sumSizes (L0.reverse.take j) < manifestSize ⟨L0 :: rest⟩ - limit) ∧
      (manifestSize ⟨L0 :: rest⟩ - limit ≤ sumSizes (L0.reverse.take k) ∨
        k = L0.length)) ∧
    fifoChoose ⟨2, none⟩ fourSegManifest 0 = some (.deleteSegments [1, 2]) := by
  refine ⟨?_, by decide⟩
  obtain ⟨k, hk, hjlt, hend⟩ :=
    fifoSizeLoop_spec (manifestSize ⟨L0 :: rest⟩ - limit) L0.reverse (by omega)
  rw [List.length_reverse] at hend
  have hkpos : 0 < k := by
    rcases Nat.eq_zero_or_pos k with rfl | h
    · rcases hend with hend | hend
      · simp only [List.take_zero, sumSizes, List.map_nil, List.sum_nil] at hend
        omega
      · exact absurd (List.length_eq_zero.mp hend.symm) hne
    · exact h
  have hids : fifoSizeLoop (manifestSize ⟨L0 :: rest⟩ - limit) L0.reverse ≠ [] := by
    rw [hk]
    intro hcon
    rcases List.take_eq_nil_iff.mp (List.map_eq_nil_iff.mp hcon) with h0 | h0
    · omega
    · exact hne (List.reverse_eq_nil_iff.mp h0)
  refine ⟨k, ?_, hkpos, hjlt, hend⟩
  simp only [fifoChoose]
  rw [if_pos hsz, List.nil_append, if_neg hids, hk]

/-- Witness for C4 at the spec's over-limit scenario. -/
theorem fifo_size_rule_witness :
    (∃ k, fifoChoose ⟨2, none⟩ fourSegManifest 0 =
        some (.deleteSegments
          (([mkSeg 4 4 1, mkSeg 3 3 1, mkSeg 2 2 1, mkSeg 1 1 1].reverse.take k).map
            fun s => s.metadata.id)) ∧
      0 < k ∧
      (∀ j < k, sumSizes
          ([mkSeg 4 4 1, mkSeg 3 3 1, mkSeg 2 2 1, mkSeg 1 1 1].reverse.take j) <
        manifestSize fourSegManifest - 2) ∧
      (manifestSize fourSegManifest - 2 ≤ sumSizes
          ([mkSeg 4 4 1, mkSeg 3 3 1, mkSeg 2 2 1, mkSeg 1 1 1].reverse.take k) ∨
        k = [mkSeg 4 4 1, mkSeg 3 3 1, mkSeg 2 2 1, mkSeg 1 1 1].length)) ∧
    fifoChoose ⟨2, none⟩ fourSegManifest 0 = some (.deleteSegments [1, 2]) :=
  fifo_size_rule 2 0 [mkSeg 4 4 1, mkSeg 3 3 1, mkSeg 2 2 1, mkSeg 1 1 1]
    [[], [], []] (by decide) (by decide)

/-! ## Claim C10 (confirmed) -/

/-- C10: FIFO Strategy::choose is partial: with no level in the resolved
view the expect on first() panics (modelled as none); with ttl enabled, a
level-0 segment created in the future makes the u128 subtraction
now − created_at underflow (modelled as none); when the preconditions
hold, choose is defined. -/
theorem fifo_choose_partiality (strat : FifoStrategy) (lvls : LevelManifest)
    (now : Nat) :
    (lvls.levels = [] → fifoChoose strat lvls now = none) ∧
    ∀ L0 rest, lvls.levels = L0 :: rest →
      ((∀ ttl, strat.ttl_seconds = some ttl → 0 < ttl →
          ∀ s ∈ L0, s.metadata.created_at ≤ now) →
        (fifoChoose strat lvls now).isSome) ∧
      ∀ ttl, strat.ttl_seconds = some ttl → 0 < ttl →
        (∃ s ∈ L0, now < s.metadata.created_at) →
        fifoChoose strat lvls now = none := by
  obtain ⟨levels⟩ := lvls
  constructor
  · intro h
    simp only at h
    subst h
    rfl
  · intro L0 rest hL
    simp only at hL
    subst hL
    constructor
    · intro hgood
      cases htls : strat.ttl_seconds with
      | none => simp [fifoChoose, htls]
      | some ttl =>
        by_cases hpos : 0 < ttl
        · simp [fifoChoose, htls, hpos,
            ttlLoop_eq_filter now ttl L0 (hgood ttl htls hpos)]
        · simp [fifoChoose, htls, hpos]
    · intro ttl htls hpos hbad
      simp [fifoChoose, htls, hpos, ttlLoop_none now ttl L0 hbad]

/-- Witness for C10: choose is defined on a well-formed manifest and
undefined when a segment postdates the clock. -/
theorem fifo_choose_partiality_witness :
    (fifoChoose ⟨10, some 5⟩ ⟨[[mkSeg 1 3 1]]⟩ 100).isSome ∧
    fifoChoose ⟨10, some 5⟩ ⟨[[mkSeg 1 200 1]]⟩ 100 = none ∧
    fifoChoose ⟨10, some 5⟩ ⟨[]⟩ 100 = none :=
  ⟨((fifo_choose_partiality ⟨10, some 5⟩ ⟨[[mkSeg 1 3 1]]⟩ 100).2 [mkSeg 1 3 1]
      [] rfl).1
      (by intro ttl h hp s hs; simp at h; subst h; simp at hs; subst hs; decide),
    ((fifo_choose_partiality ⟨10, some 5⟩ ⟨[[mkSeg 1 200 1]]⟩ 100).2
      [mkSeg 1 200 1] [] rfl).2 5 rfl (by decide)
      ⟨mkSeg 1 200 1, by decide, by decide⟩,
    (fifo_choose_partiality ⟨10, some 5⟩ ⟨[]⟩ 100).1 rfl⟩

/-! ## Segment file trailer (`src/segment/trailer.rs`) -/

/-- Big-endian bytes of a `u32`. -/
def u32be (n : Nat) : List Nat :=
  [n / 2 ^ 24 % 256, n / 2 ^ 16 % 256, n / 2 ^ 8 % 256, n % 256]

/-- Big-endian bytes of a `u64` (`write_u64::<BigEndian>`). -/
def u64be (n : Nat) : List Nat :=
  [n / 2 ^ 56 % 256, n / 2 ^ 48 % 256, n / 2 ^ 40 % 256, n / 2 ^ 32 % 256,
    n / 2 ^ 24 % 256, n / 2 ^ 16 % 256, n / 2 ^ 8 % 256, n % 256]

/-- Big-endian bytes of a `u128`. -/
def u128be (n : Nat) : List Nat :=
  [n / 2 ^ 120 % 256, n / 2 ^ 112 % 256, n / 2 ^ 104 % 256, n / 2 ^ 96 % 256,
    n / 2 ^ 88 % 256, n / 2 ^ 80 % 256, n / 2 ^ 72 % 256, n / 2 ^ 64 % 256,
    n / 2 ^ 56 % 256, n / 2 ^ 48 % 256, n / 2 ^ 40 % 256, n / 2 ^ 32 % 256,
    n / 2 ^ 24 % 256, n / 2 ^ 16 % 256, n / 2 ^ 8 % 256, n % 256]

/-- Modelled from the spec: Metadata::serialize (src/segment/meta.rs is not
in the slice); fixed-width big-endian integers, a tag byte for the
compression kind, and length-prefixed key-range keys, per spec §4.2/§3. -/
def Metadata.serializeBytes (m : Metadata) : List Nat :=
  u64be m.id ++ u128be m.created_at ++ u64be m.item_count ++
  u64be m.tombstone_count ++ u64be m.key_count ++ u64be m.file_size ++
  u64be m.uncompressed_size ++ u64be m.block_size ++ u64be m.block_count ++
  u64be m.seqno_min ++ u64be m.seqno_max ++ [m.compression % 256] ++
  u32be m.key_min.length ++ m.key_min ++ u32be m.key_max.length ++ m.key_max

/-- The four file offsets stored in the trailer (`FileOffsets`). -/
structure FileOffsets where
  index_block_ptr : Nat
  tli_ptr : Nat
  bloom_ptr : Nat
  range_tombstone_ptr : Nat
deriving DecidableEq, Repr

/-- `SegmentFileTrailer`: metadata plus offsets. -/
structure SegmentFileTrailer where
  metadata : Metadata
  offsets : FileOffsets
deriving DecidableEq, Repr

/-- `TRAILER_MAGIC = b"LSMTTRL1"`. -/
def TRAILER_MAGIC : List Nat := [76, 83, 77, 84, 84, 82, 76, 49]

/-- `TRAILER_SIZE = 256`. -/
def TRAILER_SIZE : Nat := 256

/-- `Vec::resize(n, 0)`: truncate to n, or pad with zeroes up to n. -/
def listResize (l : List Nat) (n : Nat) : List Nat :=
  l.take n ++ List.replicate (n - l.length) 0

/-- `SegmentFileTrailer::serialize`: metadata, the four big-endian u64
offsets in order, `resize(TRAILER_SIZE - MAGIC.len(), 0)`, then the magic. -/
def SegmentFileTrailer.serializeBytes (t : SegmentFileTrailer) : List Nat :=
  listResize
    (t.metadata.serializeBytes ++ u64be t.offsets.index_block_ptr ++
      u64be t.offsets.tli_ptr ++ u64be t.offsets.bloom_ptr ++
      u64be t.offsets.range_tombstone_ptr)
    (TRAILER_SIZE - TRAILER_MAGIC.length) ++ TRAILER_MAGIC

theorem u64be_length (n : Nat) : (u64be n).length = 8 := rfl

theorem listResize_length (l : List Nat) (n : Nat) :
    (listResize l n).length = n := by
  simp only [listResize, List.length_append, List.length_take,
    List.length_replicate]
  omega

/-- Every serialized trailer is exactly `TRAILER_SIZE` bytes
(the `debug_assert_eq!` in the source). -/
theorem trailer_serialize_length (t : SegmentFileTrailer) :
    t.serializeBytes.length = 256 := by
  simp [SegmentFileTrailer.serializeBytes, listResize_length, TRAILER_MAGIC,
    TRAILER_SIZE]

theorem metadata_serializeBytes_length (m : Metadata) :
    m.serializeBytes.length = 105 + m.key_min.length + m.key_max.length := by
  simp only [Metadata.serializeBytes, u64be, u128be, u32be,
    List.length_append, List.length_cons, List.length_nil]
  omega

/-! ## Claim C6 (corrected) -/

/-- C6 (amended): serialize writes exactly TRAILER_SIZE = 256 bytes, and
— provided the serialized metadata occupies at most 216 bytes — they are
the metadata, the four big-endian u64 offsets in the order
index_block_ptr, tli_ptr, bloom_ptr, range_tombstone_ptr, zero padding,
and the 8-byte magic LSMTTRL1; when the metadata is longer, the output is
still 256 bytes but the resize truncates the metadata/offsets instead of
padding. -/
theorem trailer_serialize_layout (t : SegmentFileTrailer)
    (h : t.metadata.serializeBytes.length ≤ 216) :
    t.serializeBytes.length = 256 ∧
    t.serializeBytes =
      t.metadata.serializeBytes ++ u64be t.offsets.index_block_ptr ++
      u64be t.offsets.tli_ptr ++ u64be t.offsets.bloom_ptr ++
      u64be t.offsets.range_tombstone_ptr ++
      List.replicate (216 - t.metadata.serializeBytes.length) 0 ++
      TRAILER_MAGIC ∧
    TRAILER_MAGIC = [0x4C, 0x53, 0x4D, 0x54, 0x54, 0x52, 0x4C, 0x31] := by
  refine ⟨trailer_serialize_length t, ?_, rfl⟩
  have hlen : (t.metadata.serializeBytes ++ u64be t.offsets.index_block_ptr ++
      u64be t.offsets.tli_ptr ++ u64be t.offsets.bloom_ptr ++
      u64be t.offsets.range_tombstone_ptr).length
      = t.metadata.serializeBytes.length + 32 := by
    simp only [List.length_append, u64be_length]
  rw [SegmentFileTrailer.serializeBytes, listResize,
    List.take_of_length_le (by
      rw [hlen]
      simp only [TRAILER_SIZE, TRAILER_MAGIC, List.length_cons, List.length_nil]
      omega),
    hlen]
  have hrep : TRAILER_SIZE - TRAILER_MAGIC.length -
      (t.metadata.serializeBytes.length + 32)
      = 216 - t.metadata.serializeBytes.length := by
    simp only [TRAILER_SIZE, TRAILER_MAGIC, List.length_cons, List.length_nil]
    omega
  rw [hrep]

/-- A trailer whose (spec-modelled) metadata overflows the padding area:
a 300-byte minimum key. -/
def bigKeyTrailer : SegmentFileTrailer :=
  ⟨⟨9, 1, 0, 0, 0, 1, 0, 0, 0, 0, 0, 0, List.replicate 300 7, []⟩, ⟨1, 2, 3, 4⟩⟩

/-- C6 counterexample: for a trailer whose serialized metadata exceeds
216 bytes nothing can follow the metadata and offsets inside the 256-byte
trailer — the resize truncates them — so the claimed layout
metadata ++ offsets ++ padding ++ magic is impossible. -/
theorem trailer_serialize_layout_cex :
    bigKeyTrailer.serializeBytes.length = 256 ∧
    bigKeyTrailer.metadata.serializeBytes.length = 405 ∧
    ¬ ∃ zs : List Nat, bigKeyTrailer.serializeBytes =
      bigKeyTrailer.metadata.serializeBytes ++
      u64be bigKeyTrailer.offsets.index_block_ptr ++
      u64be bigKeyTrailer.offsets.tli_ptr ++
      u64be bigKeyTrailer.offsets.bloom_ptr ++
      u64be bigKeyTrailer.offsets.range_tombstone_ptr ++ zs := by
  have hmlen : bigKeyTrailer.metadata.serializeBytes.length = 405 := by
    rw [metadata_serializeBytes_length]
    simp only [bigKeyTrailer, List.length_replicate, List.length_nil]
  refine ⟨trailer_serialize_length _, hmlen, ?_⟩
  rintro ⟨zs, hz⟩
  have h1 := congrArg List.length hz
  rw [trailer_serialize_length] at h1
  simp only [List.length_append, u64be_length, hmlen] at h1
  omega

/-- Witness for C6's amended theorem: a trailer with empty key range
(metadata 105 bytes) keeps the full layout. -/
theorem trailer_serialize_layout_witness :
    (SegmentFileTrailer.serializeBytes
        ⟨⟨9, 1, 2, 3, 4, 5, 6, 7, 8, 10, 11, 12, [], []⟩, ⟨21, 22, 23, 24⟩⟩).length
      = 256 ∧
    SegmentFileTrailer.serializeBytes
        ⟨⟨9, 1, 2, 3, 4, 5, 6, 7, 8, 10, 11, 12, [], []⟩, ⟨21, 22, 23, 24⟩⟩ =
      Metadata.serializeBytes ⟨9, 1, 2, 3, 4, 5, 6, 7, 8, 10, 11, 12, [], []⟩ ++
      u64be 21 ++ u64be 22 ++ u64be 23 ++ u64be 24 ++
      List.replicate
        (216 - (Metadata.serializeBytes
          ⟨9, 1, 2, 3, 4, 5, 6, 7, 8, 10, 11, 12, [], []⟩).length) 0 ++
      TRAILER_MAGIC ∧
    TRAILER_MAGIC = [0x4C, 0x53, 0x4D, 0x54, 0x54, 0x52, 0x4C, 0x31] :=
  trailer_serialize_layout
    ⟨⟨9, 1, 2, 3, 4, 5, 6, 7, 8, 10, 11, 12, [], []⟩, ⟨21, 22, 23, 24⟩⟩
    (by decide)

/-! ## Blob tree (`src/blob_tree/mod.rs`) -/

/-- `ValueHandle`: `(segment_id, offset)` into the value log. -/
structure ValueHandle where
  segment_id : Nat
  offset : Nat
deriving DecidableEq, Repr

/-- `MaybeInlineValue`: an inline value, or an indirect handle with the
value's size. -/
inductive MaybeInlineValue where
  | inline (bytes : Bytes) : MaybeInlineValue
  | indirect (handle : ValueHandle) (size : Nat) : MaybeInlineValue
deriving DecidableEq, Repr

/-- Big-endian value of a byte list. -/
def beVal (l : List Nat) : Nat := l.foldl (fun a b => a * 256 + b % 256) 0

/-- Modelled from the spec: MaybeInlineValue serialization
(src/blob_tree/value.rs is not in the slice): a tag byte (0 = Inline,
1 = Indirect), fixed-width big-endian integers, length-prefixed bytes. -/
def encodeMIV : MaybeInlineValue → List Nat
  | .inline bytes => 0 :: (u32be bytes.length ++ bytes)
  | .indirect handle size =>
    1 :: (u64be handle.segment_id ++ u64be handle.offset ++ u32be size)

/-- Modelled from the spec: MaybeInlineValue deserialization, inverse of
the serialization above; `none` is a decode error. -/
def decodeMIV (l : List Nat) : Option MaybeInlineValue :=
  match l with
  | [] => none
  | tag :: rest =>
    if tag = 0 then
      if (rest.drop 4).length = beVal (rest.take 4) then
        some (.inline (rest.drop 4))
      else none
    else if tag = 1 then
      if rest.length = 20 then
        some (.indirect ⟨beVal (rest.take 8), beVal ((rest.drop 8).take 8)⟩
          (beVal (rest.drop 16)))
      else none
    else none

theorem u32be_length (n : Nat) : (u32be n).length = 4 := rfl

theorem beVal_u32be (n : Nat) (h : n < 2 ^ 32) : beVal (u32be n) = n := by
  simp only [beVal, u32be, List.foldl_cons, List.foldl_nil]
  omega

/-- Round trip for inline values with a representable length. -/
theorem decodeMIV_encodeMIV_inline (v : Bytes) (h : v.length < 2 ^ 32) :
    decodeMIV (encodeMIV (.inline v)) = some (.inline v) := by
  simp only [encodeMIV, decodeMIV, if_pos rfl]
  rw [List.drop_left' (u32be_length _), List.take_left' (u32be_length _),
    beVal_u32be _ h]
  simp

/-- The per-entry loop of `BlobTree::flush_memtable`: deserialize the
memtable value (panicking — `none` — if it is not Inline), then either
keep it inline (`size < 2048`) or write it to the blob writer (whose
offset oracle `off` is the external value log's contract) and store an
Indirect handle with the value's size; the rewrapped value is serialized
into the index segment entry. -/
def flushLoop (off : List (Bytes × Bytes) → Nat) (blob_id : Nat) :
    List (ParsedInternalKey × Bytes) → List (Bytes × Bytes) →
    Option (List (ParsedInternalKey × Bytes) × List (Bytes × Bytes))
  | [], written => some ([], written)
  | (key, v) :: rest, written =>
    match decodeMIV v with
    | none => none
    | some (.indirect _ _) => none
    | some (.inline value) =>
      if value.length % U32M < 2048 then
        match flushLoop off blob_id rest written with
        | none => none
        | some (seg, w) => some ((key, encodeMIV (.inline value)) :: seg, w)
      else
        match flushLoop off blob_id rest (written ++ [(key.user_key, value)]) with
        | none => none
        | some (seg, w) =>
          some ((key, encodeMIV (.indirect ⟨blob_id, off written⟩
            (value.length % U32M))) :: seg, w)

/-- `BlobTree::flush_memtable` over the memtable's entries (in order),
starting from an empty blob file. Returns the index-segment entries and
the `(user_key, value)` pairs written to the value log. -/
def flush_memtable (off : List (Bytes × Bytes) → Nat) (blob_id : Nat)
    (items : List (ParsedInternalKey × Bytes)) :
    Option (List (ParsedInternalKey × Bytes) × List (Bytes × Bytes)) :=
  flushLoop off blob_id items []

/-- The entries routed to the value log: those whose inline value has
2048 or more bytes (as a u32). -/
def bigOf (p : ParsedInternalKey × Bytes) : Option (Bytes × Bytes) :=
  match decodeMIV p.2 with
  | some (.inline v) =>
    if v.length % U32M < 2048 then none else some (p.1.user_key, v)
  | _ => none

/-- Characterization of the flush loop from any initial blob-writer
state: it succeeds on inline-encoded memtable values, appends exactly the
large values to the value log, and rewraps each entry by the 2048-byte
threshold. -/
theorem flushLoop_spec (off : List (Bytes × Bytes) → Nat) (blob_id : Nat)
    (items : List (ParsedInternalKey × Bytes))
    (h : ∀ p ∈ items, ∃ v, p.2 = encodeMIV (.inline v) ∧ v.length < 2 ^ 32) :
    ∀ written, ∃ seg,
      flushLoop off blob_id items written
        = some (seg, written ++ items.filterMap bigOf) ∧
      List.Forall₂ (fun p q =>
        q.1 = p.1 ∧ ∀ v, decodeMIV p.2 = some (.inline v) →
          (v.length < 2048 → q.2 = encodeMIV (.inline v)) ∧
          (2048 ≤ v.length →
            ∃ o, q.2 = encodeMIV (.indirect ⟨blob_id, o⟩ v.length)))
        items seg := by
  induction items with
  | nil =>
    intro written
    exact ⟨[], by simp [flushLoop], List.Forall₂.nil⟩
  | cons p rest ih =>
    intro written
    obtain ⟨key, v⟩ := p
    obtain ⟨v₀, hpv, hlen⟩ := h _ (List.mem_cons_self _ _)
    have hdec : decodeMIV v = some (.inline v₀) := by
      rw [show v = encodeMIV (.inline v₀) from hpv]
      exact decodeMIV_encodeMIV_inline v₀ hlen
    have hmod : v₀.length % U32M = v₀.length :=
      Nat.mod_eq_of_lt (by simpa [U32M] using hlen)
    have hrest := ih fun q hq => h q (List.mem_cons_of_mem _ hq)
    by_cases hsmall : v₀.length < 2048
    · obtain ⟨seg, hseg, hfa⟩ := hrest written
      refine ⟨(key, encodeMIV (.inline v₀)) :: seg, ?_, ?_⟩
      · have hbig : bigOf (key, v) = none := by
          simp [bigOf, hdec, hmod, hsmall]
        simp only [flushLoop, hdec, hmod, if_pos hsmall, hseg,
          List.filterMap_cons, hbig]
      · refine List.Forall₂.cons ⟨rfl, ?_⟩ hfa
        intro w hw
        rw [hdec, Option.some_inj] at hw
        cases hw
        exact ⟨fun _ => rfl, fun hge => absurd hsmall (Nat.not_lt.mpr hge)⟩
    · have hge : 2048 ≤ v₀.length := Nat.le_of_not_lt hsmall
      obtain ⟨seg, hseg, hfa⟩ := hrest (written ++ [(key.user_key, v₀)])
      refine ⟨(key, encodeMIV (.indirect ⟨blob_id, off written⟩ v₀.length)) :: seg,
        ?_, ?_⟩
      · have hbig : bigOf (key, v) = some (key.user_key, v₀) := by
          simp [bigOf, hdec, hmod, hsmall]
        simp only [flushLoop, hdec, hmod, if_neg hsmall, hseg,
          List.filterMap_cons, hbig]
        simp
      · refine List.Forall₂.cons ⟨rfl, ?_⟩ hfa
        intro w hw
        rw [hdec, Option.some_inj] at hw
        cases hw
        exact ⟨fun hlt => absurd hlt hsmall, fun _ => ⟨off written, rfl⟩⟩

/-! ## Claim C7 (confirmed) -/

/-- C7: during flush_memtable every memtable entry whose inline value is
shorter than 2048 bytes is re-serialized inline into the index segment,
and every entry whose value has 2048 bytes or more is appended to the
value log and recorded as an Indirect handle (the blob segment id and a
log offset) together with the value's size. -/
theorem blobtree_flush_threshold (off : List (Bytes × Bytes) → Nat)
    (blob_id : Nat) (items : List (ParsedInternalKey × Bytes))
    (h : ∀ p ∈ items, ∃ v, p.2 = encodeMIV (.inline v) ∧ v.length < 2 ^ 32) :
    ∃ seg blobs, flush_memtable off blob_id items = some (seg, blobs) ∧
      blobs = items.filterMap bigOf ∧
      List.Forall₂ (fun p q =>
        q.1 = p.1 ∧ ∀ v, decodeMIV p.2 = some (.inline v) →
          (v.length < 2048 → q.2 = encodeMIV (.inline v)) ∧
          (2048 ≤ v.length →
            ∃ o, q.2 = encodeMIV (.indirect ⟨blob_id, o⟩ v.length)))
        items seg ∧
      ∀ p ∈ items, ∀ v, decodeMIV p.2 = some (.inline v) → 2048 ≤ v.length →
        (p.1.user_key, v) ∈ blobs := by
  obtain ⟨seg, hseg, hfa⟩ := flushLoop_spec off blob_id items h []
  refine ⟨seg, items.filterMap bigOf,
    by simpa [flush_memtable] using hseg, rfl, hfa, ?_⟩
  intro p hp w hw hge
  refine List.mem_filterMap.mpr ⟨p, hp, ?_⟩
  obtain ⟨v₀, hpv, hlen⟩ := h p hp
  have hdec : decodeMIV p.2 = some (.inline v₀) := by
    rw [hpv]
    exact decodeMIV_encodeMIV_inline v₀ hlen
  rw [hdec, Option.some_inj] at hw
  cases hw
  have hmod : w.length % U32M = w.length :=
    Nat.mod_eq_of_lt (by simpa [U32M] using hlen)
  simp [bigOf, hdec, hmod, Nat.not_lt.mpr hge]

/-- The single-entry memtable used by the flush witness. -/
def flushItems : List (ParsedInternalKey × Bytes) :=
  [(⟨[1], 0, .value⟩, encodeMIV (.inline [9]))]

/-- Witness for C7 at a concrete one-entry memtable. -/
theorem blobtree_flush_threshold_witness :
    ∃ seg blobs,
      flush_memtable (fun w => (w.map fun q => q.2.length).sum) 7 flushItems
        = some (seg, blobs) ∧
      blobs = flushItems.filterMap bigOf ∧
      List.Forall₂ (fun p q =>
        q.1 = p.1 ∧ ∀ v, decodeMIV p.2 = some (.inline v) →
          (v.length < 2048 → q.2 = encodeMIV (.inline v)) ∧
          (2048 ≤ v.length →
            ∃ o, q.2 = encodeMIV (.indirect ⟨7, o⟩ v.length)))
        flushItems seg ∧
      ∀ p ∈ flushItems, ∀ v, decodeMIV p.2 = some (.inline v) →
        2048 ≤ v.length → (p.1.user_key, v) ∈ blobs :=
  blobtree_flush_threshold (fun w => (w.map fun q => q.2.length).sum) 7
    flushItems (by
      intro p hp
      simp only [flushItems, List.mem_singleton] at hp
      subst hp
      exact ⟨[9], rfl, by norm_num⟩)

/-! ## Claim C8 (confirmed) -/

/-- The blob tree's error kinds, as far as `resolve_value_handle` needs
them: a decode error from deserializing the wrapper, or a value-log
error. -/
inductive BTErr where
  | decodeError : BTErr
  | vlogError (code : Nat) : BTErr
deriving DecidableEq, Repr

/-- Outcome of `resolve_value_handle`: a key-value pair, an error, or the
`panic!("Aahhhh")` reached on a missing blob. -/
inductive BlobItem where
  | ok (key value : Bytes) : BlobItem
  | er (e : BTErr) : BlobItem
  | panicked : BlobItem
deriving DecidableEq, Repr

/-- `BlobTree::resolve_value_handle`: deserialize the range item's value;
inline values pass through; indirect handles are looked up in the value
log (`blobGet`), where `Ok(Some)` yields the bytes, `Err` propagates, and
`Ok(None)` — a missing blob — reaches the panic. -/
def resolve_value_handle (blobGet : ValueHandle → Except Nat (Option Bytes)) :
    Except BTErr (Bytes × Bytes) → BlobItem
  | .error e => .er e
  | .ok (key, value) =>
    match decodeMIV value with
    | none => .er .decodeError
    | some (.inline bytes) => .ok key bytes
    | some (.indirect handle _) =>
      match blobGet handle with
      | .ok (some bytes) => .ok key bytes
      | .error e => .er (.vlogError e)
      | .ok none => .panicked

/-- C8: when the range item is Ok, its value decodes to an Indirect
handle, and the value log returns Ok(None) for that handle,
resolve_value_handle reaches the panic instead of producing a
dangling-handle error. -/
theorem resolve_value_handle_panics :
    decodeMIV (encodeMIV (.indirect ⟨0, 0⟩ 5)) = some (.indirect ⟨0, 0⟩ 5) ∧
    resolve_value_handle (fun _ => .ok none)
      (.ok ([1], encodeMIV (.indirect ⟨0, 0⟩ 5))) = .panicked := by
  decide

end LsmTree
